import Mathlib

/-!
Shallow embedding of the Bloomify-Engine beatmap generators
(`auto_gen.py`, `auto_gen_Silly.py`, `auto_gen_expert.py`).

Times are rationals (the Python floats are treated as exact arithmetic),
machine integers are `Int`/`Nat`, and the process-wide random source is
abstracted into explicit oracle arguments: each call site of
`random.choice` / `random.random()` reads an arbitrary value from an
oracle, so theorems quantify over every possible sequence of random
draws.  Audio analysis (librosa) is the out-of-scope adapter: its
outputs (beat times, onset times, per-beat high-energy flags, per-onset
RMS strengths) are the inputs of the embedded functions.
-/

namespace Bloomify

/-- A note object `{"time": time_ms, "lane": lane}` as built by all three
generators.  `time` is integer milliseconds, `lane` a lane index. -/
structure Note where
  time : ℤ
  lane : ℤ
deriving DecidableEq

/-- Python `int(x)` applied to a real value: truncation toward zero. -/
def pyInt (x : ℚ) : ℤ := if 0 ≤ x then ⌊x⌋ else ⌈x⌉

/-- Python `random.choice(xs)`: the random draw is abstracted into the oracle
value `k`; every index of `xs` is selectable (via `k % xs.length`) and the
empty list gives `none` (Python raises `IndexError` there). -/
def randomChoice (xs : List α) (k : ℕ) : Option α :=
  xs.get? (k % xs.length)

/-- Scan loop of `auto_gen_expert.generate_stream_map` (lines 54-66): `i` is
the enumeration index, the `Option ℕ` is `current_stream_start` (`none` for
`-1`); on a falling edge, and at the end of the sequence, a section is kept
when its beat length is at least `min_stream_duration_beats`. -/
def scanRuns (min_stream_duration_beats : ℚ) :
    ℕ → Option ℕ → List Bool → List (ℕ × ℕ)
  | i, some s, [] =>
      if min_stream_duration_beats ≤ (i : ℚ) - (s : ℚ) then [(s, i)] else []
  | _, none, [] => []
  | i, none, true :: rest =>
      scanRuns min_stream_duration_beats (i + 1) (some i) rest
  | i, none, false :: rest =>
      scanRuns min_stream_duration_beats (i + 1) none rest
  | i, some s, true :: rest =>
      scanRuns min_stream_duration_beats (i + 1) (some s) rest
  | i, some s, false :: rest =>
      (if min_stream_duration_beats ≤ (i : ℚ) - (s : ℚ) then [(s, i)] else []) ++
        scanRuns min_stream_duration_beats (i + 1) none rest

/-- Stream Section Detector (`auto_gen_expert.py` lines 54-66), applied to the
per-beat high-energy flags.  The flag list has one entry per beat time, so the
final index equals `len(beat_times)` of the source. -/
def stream_sections (is_beat_high_energy : List Bool)
    (min_stream_duration_beats : ℚ) : List (ℕ × ℕ) :=
  scanRuns min_stream_duration_beats 0 none is_beat_high_energy

/-- Test `any(start <= current_beat < end for start, end in stream_sections)`
(`auto_gen_expert.py` line 81). -/
def inStream (sections : List (ℕ × ℕ)) (current_beat : ℕ) : Bool :=
  sections.any fun se => decide (se.1 ≤ current_beat) && decide (current_beat < se.2)

/-- Body of one iteration of the quantized-note loop
(`auto_gen_expert.py` lines 80-103): inside a stream section the beat interval
is subdivided evenly with only offset 0 flagged as downbeat; otherwise the
first onset in `[start_time, end_time)` is used (the list `onsets_in_beat` is
a filter of `onset_times`, and `onsets_in_beat[0]` is its head), falling back
to `start_time`, flagged as downbeat. -/
def intervalNotes (sections : List (ℕ × ℕ)) (onset_times : List ℚ)
    (stream_subdivision : ℕ) (current_beat : ℕ) (start_time end_time : ℚ) :
    List (ℚ × Bool) :=
  if inStream sections current_beat then
    (List.range stream_subdivision).map fun i : ℕ =>
      (start_time + (i : ℚ) * (end_time - start_time) / (stream_subdivision : ℚ),
        i == 0)
  else
    match (onset_times.filter fun t => decide (start_time ≤ t ∧ t < end_time)).head? with
    | some t => [(t, true)]
    | none => [(start_time, true)]

/-- Quantized-note loop of `auto_gen_expert.py` (lines 79-103): `current_beat`
runs while `current_beat < len(beat_times) - 1`, pairing each beat time with
its successor. -/
def note_timestamps (sections : List (ℕ × ℕ)) (onset_times : List ℚ)
    (stream_subdivision : ℕ) : ℕ → List ℚ → List (ℚ × Bool)
  | current_beat, t0 :: t1 :: rest =>
      intervalNotes sections onset_times stream_subdivision current_beat t0 t1 ++
        note_timestamps sections onset_times stream_subdivision
          (current_beat + 1) (t1 :: rest)
  | _, _ => []

/-- The fixed stream patterns of `auto_gen_expert.py` lines 110-114
(`zig_zag`, `staircase`, `in_out`), in dictionary order. -/
def patterns : List (List ℤ) :=
  [[0, 2, 1, 3, 2, 0, 3, 1], [0, 1, 2, 3, 2, 1, 0, 1], [0, 3, 1, 2, 1, 3, 0, 2]]

/-- Body of one iteration of the note-placement loop
(`auto_gen_expert.py` lines 118-132).  `pattern_index` equals the enumeration
index `i` of the loop, because the source increments it exactly once per
iteration.  `chordHit i` stands for `random.random() < chord_chance` at the
i-th iteration, `chordPick i` for the `random.choice` draw over
`possible_lanes`; the source's `if possible_lanes:` guard is the `none`
branch of `randomChoice`. -/
def noteGroup (lanes : ℕ) (chordHit : ℕ → Bool) (chordPick : ℕ → ℕ)
    (current_pattern : List ℤ) (pattern_index : ℕ) (p : ℚ × Bool) : List Note :=
  let time_ms := pyInt (p.1 * 1000)
  let lane1 := current_pattern.getD (pattern_index % current_pattern.length) 0
  if p.2 && chordHit pattern_index then
    match randomChoice (((List.range lanes).map Int.ofNat).filter fun l => l != lane1)
        (chordPick pattern_index) with
    | some lane2 => [⟨time_ms, lane1⟩, ⟨time_ms, lane2⟩]
    | none => [⟨time_ms, lane1⟩]
  else [⟨time_ms, lane1⟩]

/-- Note-placement loop of `auto_gen_expert.py` (lines 118-132). -/
def placeLoop (lanes : ℕ) (chordHit : ℕ → Bool) (chordPick : ℕ → ℕ)
    (current_pattern : List ℤ) : ℕ → List (ℚ × Bool) → List Note
  | _, [] => []
  | pattern_index, p :: rest =>
      noteGroup lanes chordHit chordPick current_pattern pattern_index p ++
        placeLoop lanes chordHit chordPick current_pattern (pattern_index + 1) rest

/-- Note pipeline of `auto_gen_expert.generate_stream_map`: stream sections
from the per-beat energy flags, quantized timestamps, then pattern-based
placement with the pattern drawn by the `patternPick` oracle
(`random.choice(list(patterns.values()))`).  Metadata fields of the returned
beatmap dictionary are omitted; `notes` is the only field the claims touch.
A negative Python `lanes` behaves as `0` (`range(lanes)` is empty either
way), so `lanes` is a natural number here. -/
def generate_stream_map (beat_times : List ℚ) (is_beat_high_energy : List Bool)
    (onset_times : List ℚ) (lanes stream_subdivision : ℕ)
    (min_stream_duration_beats : ℚ) (patternPick : ℕ) (chordHit : ℕ → Bool)
    (chordPick : ℕ → ℕ) : List Note :=
  let sections := stream_sections is_beat_high_energy min_stream_duration_beats
  let ts := note_timestamps sections onset_times stream_subdivision 0 beat_times
  let current_pattern := patterns.getD (patternPick % patterns.length) []
  placeLoop lanes chordHit chordPick current_pattern 0 ts

/-- Model of `np.percentile(xs, q)` with numpy's default linear-interpolation
method: with `xs` sorted ascending and `r = q/100 * (len(xs) - 1)`, the result
interpolates between the values at indices `⌊r⌋` and `⌈r⌉`. -/
def percentile (xs : List ℚ) (q : ℚ) : ℚ :=
  let sorted := xs.insertionSort (· ≤ ·)
  let r := q / 100 * ((xs.length : ℚ) - 1)
  let vf := sorted.getD (⌊r⌋.toNat) 0
  let vc := sorted.getD (⌈r⌉.toNat) 0
  vf + (r - (⌊r⌋ : ℚ)) * (vc - vf)

/-- Difficulty filter of `auto_gen.generate_smart_beatmap` (lines 52-66), also
the `smart`-mode body of `auto_gen_Silly.py` (lines 59-70): onsets are kept
when their RMS strength is at least the `(1 - difficulty) * 100` percentile
of all onset strengths. -/
def strong_onsets (onset_times onset_strengths : List ℚ) (difficulty : ℚ) :
    List ℚ :=
  if 0 < onset_times.length then
    let strength_threshold := percentile onset_strengths ((1 - difficulty) * 100)
    (onset_times.zip onset_strengths).filterMap fun p =>
      if strength_threshold ≤ p.2 then some p.1 else none
  else []

/-- Note-placement loop shared by `auto_gen.py` (lines 72-87) and
`auto_gen_Silly.py` (lines 78-93): `last_lane` starts at `-1`; the previous
lane is removed from the candidates when present and when more than one lane
exists, then `random.choice` picks the lane (modelled by the `pick` oracle;
`none` is Python's `IndexError` on an empty candidate list). -/
def placeSimpleLoop (lanes : ℕ) (pick : ℕ → ℕ) : ℕ → ℤ → List ℚ → Option (List Note)
  | _, _, [] => some []
  | i, last_lane, t :: rest =>
      let possible0 := (List.range lanes).map Int.ofNat
      let possible_lanes :=
        if last_lane ∈ possible0 ∧ 1 < possible0.length
        then possible0.erase last_lane else possible0
      match randomChoice possible_lanes (pick i) with
      | none => none
      | some chosen_lane =>
          match placeSimpleLoop lanes pick (i + 1) chosen_lane rest with
          | none => none
          | some notes => some (⟨pyInt (t * 1000), chosen_lane⟩ :: notes)

/-- Note pipeline of `auto_gen.generate_smart_beatmap`: difficulty-filtered
onsets, then no-repeat random lane placement.  Beatmap metadata is omitted;
`notes` is the only field the claims touch. -/
def generate_smart_beatmap (onset_times onset_strengths : List ℚ)
    (difficulty : ℚ) (lanes : ℕ) (pick : ℕ → ℕ) : Option (List Note) :=
  placeSimpleLoop lanes pick 0 (-1)
    (strong_onsets onset_times onset_strengths difficulty)

/-- Note pipeline of `auto_gen_Silly.generate_configurable_beatmap`: in
`smart` mode with at least one onset the difficulty filter runs (its body is
the same percentile filter as `auto_gen.py`); any other mode (`chaotic`)
keeps every onset. -/
def generate_configurable_beatmap (onset_times onset_strengths : List ℚ)
    (difficulty : ℚ) (lanes : ℕ) (mode : String) (pick : ℕ → ℕ) :
    Option (List Note) :=
  let notes_to_place :=
    if mode = "smart" ∧ 0 < onset_times.length then
      strong_onsets onset_times onset_strengths difficulty
    else onset_times
  placeSimpleLoop lanes pick 0 (-1) notes_to_place

/-- Evaluation helper: `Int.ceil` on ℚ in terms of `Int.floor`, which the
`norm_num` extension can compute. -/
theorem ceil_eq_neg_floor_neg (x : ℚ) : ⌈x⌉ = -⌊-x⌋ := by
  rw [← Int.ceil_neg, neg_neg]

example : pyInt (5 / 8 : ℚ) = 0 := by norm_num [pyInt]
example : pyInt (-5 / 8 : ℚ) = 0 := by
  rw [pyInt, if_neg (by norm_num), ceil_eq_neg_floor_neg]; norm_num
example : pyInt (1000 : ℚ) = 1000 := by norm_num [pyInt]
example : stream_sections [false, true, true, false] 2 = [(1, 3)] := by
  norm_num [stream_sections, scanRuns]
example : stream_sections [false, true, true, false] 3 = [] := by
  norm_num [stream_sections, scanRuns]
example : stream_sections [false, true, true] 2 = [(1, 3)] := by
  norm_num [stream_sections, scanRuns]
example : percentile [5, 3] 100 = 5 := by
  norm_num [percentile, List.insertionSort, List.orderedInsert,
    ceil_eq_neg_floor_neg]
example : percentile [5, 3] 0 = 3 := by
  norm_num [percentile, List.insertionSort, List.orderedInsert,
    ceil_eq_neg_floor_neg]
example : percentile [5, 3] 50 = 4 := by
  norm_num [percentile, List.insertionSort, List.orderedInsert,
    ceil_eq_neg_floor_neg]
example : strong_onsets [1, 2] [5, 3] 1 = [1, 2] := by
  norm_num [strong_onsets, percentile, List.insertionSort, List.orderedInsert,
    ceil_eq_neg_floor_neg, List.filterMap]
example : strong_onsets [1, 2] [5, 3] 0 = [1] := by
  norm_num [strong_onsets, percentile, List.insertionSort, List.orderedInsert,
    ceil_eq_neg_floor_neg, List.filterMap]
example : generate_smart_beatmap [1] [5] 1 0 (fun _ => 0) = none := by
  norm_num [generate_smart_beatmap, strong_onsets, percentile,
    List.insertionSort, List.orderedInsert, ceil_eq_neg_floor_neg,
    List.filterMap, placeSimpleLoop, randomChoice]
example :
    generate_stream_map [0, 1, 2] [false, false, false] [] 1 4 4 0
      (fun _ => false) (fun _ => 0) = [⟨0, 0⟩, ⟨1000, 2⟩] := by
  norm_num [generate_stream_map, stream_sections, scanRuns, note_timestamps,
    intervalNotes, inStream, patterns, noteGroup, placeLoop, pyInt,
    List.filter]

theorem scanRuns_false_prefix (d : ℚ) (rest : List Bool) :
    ∀ n i : ℕ, scanRuns d i none (List.replicate n false ++ rest) =
      scanRuns d (i + n) none rest := by
  intro n
  induction n with
  | zero => intro i; simp
  | succ k ih =>
      intro i
      simp only [List.replicate_succ, List.cons_append, scanRuns, List.append_eq]
      rw [ih]
      have h : i + 1 + k = i + (k + 1) := by omega
      rw [h]

theorem scanRuns_true_run (d : ℚ) (rest : List Bool) (s : ℕ) :
    ∀ n i : ℕ, scanRuns d i (some s) (List.replicate n true ++ rest) =
      scanRuns d (i + n) (some s) rest := by
  intro n
  induction n with
  | zero => intro i; simp
  | succ k ih =>
      intro i
      simp only [List.replicate_succ, List.cons_append, scanRuns, List.append_eq]
      rw [ih]
      have h : i + 1 + k = i + (k + 1) := by omega
      rw [h]

theorem scanRuns_all_false (d : ℚ) (n i : ℕ) :
    scanRuns d i none (List.replicate n false) = [] := by
  have h := scanRuns_false_prefix d [] n i
  simpa [scanRuns] using h

theorem scanRuns_close (d : ℚ) (s : ℕ) :
    ∀ m i : ℕ, scanRuns d i (some s) (List.replicate m false) =
      if d ≤ (i : ℚ) - (s : ℚ) then [(s, i)] else [] := by
  intro m
  induction m with
  | zero => intro i; rfl
  | succ k _ =>
      intro i
      simp only [List.replicate_succ, scanRuns]
      rw [scanRuns_all_false]
      simp

/-- C1: for a boolean high-energy sequence consisting of a single contiguous
true-run of length `L ≥ 1` starting at index `i` (with `m` trailing false
flags, `m = 0` covering a run still open at sequence end), the Stream Section
Detector yields exactly the single section `(i, i + L)` when `L ≥ D` and no
section when `L < D`; the length test is inclusive at `L = D`. -/
theorem stream_sections_single_run (i L m : ℕ) (D : ℚ) (hL : 1 ≤ L) :
    stream_sections
        (List.replicate i false ++ List.replicate L true ++ List.replicate m false)
        D =
      if D ≤ (L : ℚ) then [(i, i + L)] else [] := by
  obtain ⟨K, rfl⟩ : ∃ K, L = K + 1 := ⟨L - 1, by omega⟩
  unfold stream_sections
  rw [List.append_assoc, scanRuns_false_prefix]
  rw [List.replicate_succ, List.cons_append]
  simp only [scanRuns]
  rw [scanRuns_true_run, scanRuns_close]
  have h1 : 0 + i + 1 + K = i + (K + 1) := by omega
  have h2 : ((0 + i + 1 + K : ℕ) : ℚ) - ((0 + i : ℕ) : ℚ) = ((K + 1 : ℕ) : ℚ) := by
    push_cast; ring
  rw [h2]
  have h3 : 0 + i = i := by omega
  rw [h3] at h1 ⊢
  rw [h1]

/-- Witness for C1 at a concrete input: run of length 2 starting at index 1,
minimum duration 2 (the inclusive boundary case). -/
theorem stream_sections_single_run_checked :
    1 ≤ 2 ∧
      stream_sections
          (List.replicate 1 false ++ List.replicate 2 true ++
            List.replicate 1 false) 2 =
        if (2 : ℚ) ≤ ((2 : ℕ) : ℚ) then [(1, 1 + 2)] else [] :=
  ⟨by omega, stream_sections_single_run 1 2 1 2 (by omega)⟩

theorem inStream_iff (sections : List (ℕ × ℕ)) (cb : ℕ) :
    inStream sections cb = true ↔ ∃ se ∈ sections, se.1 ≤ cb ∧ cb < se.2 := by
  simp [inStream, List.any_eq_true]

theorem nat_beq_eq_decide (k : ℕ) : (k == 0) = decide (k = 0) := by
  cases k <;> rfl

/-- C2: for one beat interval `[t0, t1)` at index `cb`, the Note Timestamp
Generator emits, inside a stream section, exactly `S` timestamps at
`t0 + k * (t1 - t0) / S` with only `k = 0` flagged as downbeat; outside any
stream section it emits exactly one timestamp flagged as downbeat, equal to
the earliest onset in `[t0, t1)` when one exists (the onset list being
sorted) and to `t0` otherwise. -/
theorem intervalNotes_spec (sections : List (ℕ × ℕ)) (onset_times : List ℚ)
    (S cb : ℕ) (t0 t1 : ℚ) (hsorted : List.Pairwise (· ≤ ·) onset_times) :
    ((∃ se ∈ sections, se.1 ≤ cb ∧ cb < se.2) →
        (intervalNotes sections onset_times S cb t0 t1).length = S ∧
          ∀ k, k < S →
            (intervalNotes sections onset_times S cb t0 t1).get? k =
              some (t0 + (k : ℚ) * (t1 - t0) / (S : ℚ), decide (k = 0)))
    ∧ ((¬ ∃ se ∈ sections, se.1 ≤ cb ∧ cb < se.2) →
        ∃ t, intervalNotes sections onset_times S cb t0 t1 = [(t, true)] ∧
          ((∃ u ∈ onset_times, t0 ≤ u ∧ u < t1) →
            t ∈ onset_times ∧ t0 ≤ t ∧ t < t1 ∧
              ∀ u ∈ onset_times, t0 ≤ u → u < t1 → t ≤ u) ∧
          ((¬ ∃ u ∈ onset_times, t0 ≤ u ∧ u < t1) → t = t0)) := by
  constructor
  · intro hin
    have hb : inStream sections cb = true := (inStream_iff sections cb).mpr hin
    unfold intervalNotes
    rw [if_pos hb]
    refine ⟨by simp, ?_⟩
    intro k hk
    rw [List.get?_map, List.get?_range hk]
    simp [nat_beq_eq_decide]
  · intro hout
    have hb : ¬ inStream sections cb = true := fun h =>
      hout ((inStream_iff sections cb).mp h)
    unfold intervalNotes
    rw [if_neg hb]
    cases hh : (onset_times.filter fun t => decide (t0 ≤ t ∧ t < t1)).head? with
    | none =>
        have hnil : (onset_times.filter fun t => decide (t0 ≤ t ∧ t < t1)) = [] :=
          List.head?_eq_none_iff.mp hh
        refine ⟨t0, rfl, ?_, fun _ => rfl⟩
        rintro ⟨u, hu, h1, h2⟩
        have : u ∈ (onset_times.filter fun t => decide (t0 ≤ t ∧ t < t1)) :=
          List.mem_filter.mpr ⟨hu, decide_eq_true ⟨h1, h2⟩⟩
        rw [hnil] at this
        exact absurd this (List.not_mem_nil u)
    | some a =>
        refine ⟨a, rfl, ?_, ?_⟩
        · intro _
          obtain ⟨l', hFl⟩ : ∃ l',
              (onset_times.filter fun t => decide (t0 ≤ t ∧ t < t1)) = a :: l' := by
            cases hc : (onset_times.filter fun t => decide (t0 ≤ t ∧ t < t1)) with
            | nil => rw [hc] at hh; exact absurd hh (by simp)
            | cons b l' =>
                rw [hc, List.head?_cons] at hh
                exact ⟨l', by rw [Option.some.inj hh]⟩
          have hamem : a ∈ (onset_times.filter fun t => decide (t0 ≤ t ∧ t < t1)) := by
            rw [hFl]; exact List.mem_cons_self a l'
          obtain ⟨haons, hacond⟩ := List.mem_filter.mp hamem
          obtain ⟨ha0, ha1⟩ := of_decide_eq_true hacond
          refine ⟨haons, ha0, ha1, ?_⟩
          intro u hu hu0 hu1
          have humem : u ∈ (onset_times.filter fun t => decide (t0 ≤ t ∧ t < t1)) :=
            List.mem_filter.mpr ⟨hu, decide_eq_true ⟨hu0, hu1⟩⟩
          rw [hFl] at humem
          rcases List.mem_cons.mp humem with h | h
          · exact le_of_eq h.symm
          · have hpf : List.Pairwise (· ≤ ·)
                (onset_times.filter fun t => decide (t0 ≤ t ∧ t < t1)) :=
              hsorted.filter _
            rw [hFl] at hpf
            exact (List.pairwise_cons.mp hpf).1 u h
        · intro hnou
          obtain ⟨l', hFl⟩ : ∃ l',
              (onset_times.filter fun t => decide (t0 ≤ t ∧ t < t1)) = a :: l' := by
            cases hc : (onset_times.filter fun t => decide (t0 ≤ t ∧ t < t1)) with
            | nil => rw [hc] at hh; exact absurd hh (by simp)
            | cons b l' =>
                rw [hc, List.head?_cons] at hh
                exact ⟨l', by rw [Option.some.inj hh]⟩
          have hamem : a ∈ (onset_times.filter fun t => decide (t0 ≤ t ∧ t < t1)) := by
            rw [hFl]; exact List.mem_cons_self a l'
          obtain ⟨haons, hacond⟩ := List.mem_filter.mp hamem
          obtain ⟨ha0, ha1⟩ := of_decide_eq_true hacond
          exact absurd ⟨a, haons, ha0, ha1⟩ hnou

/-- Witness for C2 at a concrete input: beat index 0 inside the stream
section `(0, 2)` subdivided in two. -/
theorem intervalNotes_spec_checked :
    (intervalNotes [(0, 2)] [(1 : ℚ) / 2] 2 0 0 1).length = 2 :=
  ((intervalNotes_spec [(0, 2)] [(1 : ℚ) / 2] 2 0 0 1 (by simp)).1
    ⟨(0, 2), by simp, by omega, by omega⟩).1

theorem pyInt_mono {x y : ℚ} (h : x ≤ y) : pyInt x ≤ pyInt y := by
  unfold pyInt
  by_cases hx : 0 ≤ x
  · rw [if_pos hx, if_pos (le_trans hx h)]
    exact Int.floor_le_floor h
  · rw [if_neg hx]
    by_cases hy : 0 ≤ y
    · rw [if_pos hy]
      have h1 : ⌈x⌉ ≤ 0 := Int.ceil_le.mpr (by exact_mod_cast le_of_not_le hx)
      have h2 : (0 : ℤ) ≤ ⌊y⌋ := Int.floor_nonneg.mpr hy
      omega
    · rw [if_neg hy]
      exact Int.ceil_le_ceil h

theorem note_timestamps_nil (sections : List (ℕ × ℕ)) (onset_times : List ℚ)
    (S cb : ℕ) : note_timestamps sections onset_times S cb [] = [] := rfl

theorem note_timestamps_single (sections : List (ℕ × ℕ)) (onset_times : List ℚ)
    (S cb : ℕ) (t : ℚ) : note_timestamps sections onset_times S cb [t] = [] := rfl

theorem note_timestamps_cons2 (sections : List (ℕ × ℕ)) (onset_times : List ℚ)
    (S cb : ℕ) (t0 t1 : ℚ) (rest : List ℚ) :
    note_timestamps sections onset_times S cb (t0 :: t1 :: rest) =
      intervalNotes sections onset_times S cb t0 t1 ++
        note_timestamps sections onset_times S (cb + 1) (t1 :: rest) := rfl

theorem intervalNotes_mem_bounds (sections : List (ℕ × ℕ)) (onset_times : List ℚ)
    (S cb : ℕ) {t0 t1 : ℚ} (hlt : t0 < t1) :
    ∀ p ∈ intervalNotes sections onset_times S cb t0 t1, t0 ≤ p.1 ∧ p.1 < t1 := by
  intro p hp
  unfold intervalNotes at hp
  by_cases hb : inStream sections cb
  · rw [if_pos hb] at hp
    obtain ⟨k, hk, rfl⟩ := List.mem_map.mp hp
    have hkS : k < S := List.mem_range.mp hk
    have hSpos : (0 : ℚ) < (S : ℚ) := by
      have : 0 < S := by omega
      exact_mod_cast this
    have hΔ : (0 : ℚ) ≤ t1 - t0 := by linarith
    constructor
    · have h0 : (0 : ℚ) ≤ (k : ℚ) * (t1 - t0) / (S : ℚ) :=
        div_nonneg (mul_nonneg (Nat.cast_nonneg k) hΔ) hSpos.le
      simpa using by linarith [h0]
    · have hkQ : (k : ℚ) < (S : ℚ) := by exact_mod_cast hkS
      have hfrac : (k : ℚ) * (t1 - t0) / (S : ℚ) < t1 - t0 := by
        rw [div_lt_iff hSpos]
        have := mul_lt_mul_of_pos_right hkQ (by linarith : (0 : ℚ) < t1 - t0)
        linarith [this]
      simpa using by linarith [hfrac]
  · rw [if_neg hb] at hp
    cases hh : (onset_times.filter fun t => decide (t0 ≤ t ∧ t < t1)).head? with
    | none =>
        rw [hh] at hp
        simp at hp
        rw [hp]
        exact ⟨le_refl t0, hlt⟩
    | some a =>
        rw [hh] at hp
        simp at hp
        have hamem : a ∈ (onset_times.filter fun t => decide (t0 ≤ t ∧ t < t1)) :=
          List.mem_of_mem_head? (by rw [hh]; exact rfl)
        obtain ⟨_, hacond⟩ := List.mem_filter.mp hamem
        obtain ⟨ha0, ha1⟩ := of_decide_eq_true hacond
        rw [hp]
        exact ⟨ha0, ha1⟩

theorem intervalNotes_fst_sorted (sections : List (ℕ × ℕ)) (onset_times : List ℚ)
    (S cb : ℕ) (t0 t1 : ℚ) (hlt : t0 < t1) :
    List.Pairwise (· ≤ ·)
      ((intervalNotes sections onset_times S cb t0 t1).map Prod.fst) := by
  unfold intervalNotes
  by_cases hb : inStream sections cb
  · rw [if_pos hb, List.map_map]
    refine List.Pairwise.map _ ?_ (List.pairwise_lt_range S)
    intro a b hab
    simp only [Function.comp]
    have hΔ : (0 : ℚ) ≤ t1 - t0 := by linarith
    have habQ : (a : ℚ) ≤ (b : ℚ) := by exact_mod_cast hab.le
    rcases Nat.eq_zero_or_pos S with hS | hS
    · subst hS
      simp
    · have hSpos : (0 : ℚ) < (S : ℚ) := by exact_mod_cast hS
      have h1 : (a : ℚ) * (t1 - t0) ≤ (b : ℚ) * (t1 - t0) :=
        mul_le_mul_of_nonneg_right habQ hΔ
      have h2 : (a : ℚ) * (t1 - t0) / (S : ℚ) ≤ (b : ℚ) * (t1 - t0) / (S : ℚ) :=
        (div_le_div_right hSpos).mpr h1
      linarith
  · rw [if_neg hb]
    cases hh : (onset_times.filter fun t => decide (t0 ≤ t ∧ t < t1)).head? with
    | none => simp
    | some a => simp

theorem note_timestamps_lb (sections : List (ℕ × ℕ)) (onset_times : List ℚ)
    (S : ℕ) :
    ∀ (bts : List ℚ) (cb : ℕ), List.Pairwise (· < ·) bts →
      ∀ p ∈ note_timestamps sections onset_times S cb bts,
        ∀ t0, bts.head? = some t0 → t0 ≤ p.1 := by
  intro bts
  induction bts with
  | nil =>
      intro cb _ p hp
      rw [note_timestamps_nil] at hp
      exact absurd hp (List.not_mem_nil p)
  | cons t0 rest ih =>
      cases rest with
      | nil =>
          intro cb _ p hp
          rw [note_timestamps_single] at hp
          exact absurd hp (List.not_mem_nil p)
      | cons t1 rest' =>
          intro cb hpw p hp t0' ht0'
          have ht0eq : t0' = t0 := by
            rw [List.head?_cons] at ht0'
            exact (Option.some.inj ht0').symm
          rw [ht0eq]
          have h01 : t0 < t1 := (List.pairwise_cons.mp hpw).1 t1 (List.mem_cons_self t1 rest')
          rw [note_timestamps_cons2] at hp
          rcases List.mem_append.mp hp with h | h
          · exact (intervalNotes_mem_bounds sections onset_times S cb h01 p h).1
          · have h1 : t1 ≤ p.1 :=
              ih (cb + 1) (List.Pairwise.of_cons hpw) p h t1 (List.head?_cons)
            linarith

theorem note_timestamps_sorted (sections : List (ℕ × ℕ)) (onset_times : List ℚ)
    (S : ℕ) :
    ∀ (bts : List ℚ) (cb : ℕ), List.Pairwise (· < ·) bts →
      List.Pairwise (· ≤ ·)
        ((note_timestamps sections onset_times S cb bts).map Prod.fst) := by
  intro bts
  induction bts with
  | nil => intro cb _; rw [note_timestamps_nil]; simp
  | cons t0 rest ih =>
      cases rest with
      | nil => intro cb _; rw [note_timestamps_single]; simp
      | cons t1 rest' =>
          intro cb hpw
          have h01 : t0 < t1 := (List.pairwise_cons.mp hpw).1 t1 (List.mem_cons_self t1 rest')
          rw [note_timestamps_cons2, List.map_append]
          refine List.pairwise_append.mpr ⟨?_, ?_, ?_⟩
          · exact intervalNotes_fst_sorted sections onset_times S cb t0 t1 h01
          · exact ih (cb + 1) (List.Pairwise.of_cons hpw)
          · intro x hx y hy
            obtain ⟨px, hpx, rfl⟩ := List.mem_map.mp hx
            obtain ⟨py, hpy, rfl⟩ := List.mem_map.mp hy
            have hx1 : px.1 < t1 :=
              (intervalNotes_mem_bounds sections onset_times S cb h01 px hpx).2
            have hy1 : t1 ≤ py.1 :=
              note_timestamps_lb sections onset_times S (t1 :: rest') (cb + 1)
                (List.Pairwise.of_cons hpw) py hpy t1 (List.head?_cons)
            exact le_of_lt (lt_of_lt_of_le hx1 hy1)

theorem randomChoice_mem {α : Type} {xs : List α} {k : ℕ} {a : α}
    (h : randomChoice xs k = some a) : a ∈ xs := by
  unfold randomChoice at h
  exact List.get?_mem h

theorem randomChoice_isSome {α : Type} {xs : List α} (h : xs ≠ []) (k : ℕ) :
    ∃ a, randomChoice xs k = some a := by
  have hl : 0 < xs.length := List.length_pos.mpr h
  have hk : k % xs.length < xs.length := Nat.mod_lt k hl
  exact ⟨xs.get ⟨k % xs.length, hk⟩, List.get?_eq_get hk⟩

theorem mem_possible0 {lanes : ℕ} {l : ℤ} :
    l ∈ (List.range lanes).map Int.ofNat ↔ 0 ≤ l ∧ l < (lanes : ℤ) := by
  constructor
  · intro h
    obtain ⟨m, hm, rfl⟩ := List.mem_map.mp h
    have := List.mem_range.mp hm
    refine ⟨Int.ofNat_nonneg m, ?_⟩
    show (m : ℤ) < (lanes : ℤ)
    exact_mod_cast this
  · rintro ⟨h0, hl⟩
    refine List.mem_map.mpr ⟨l.toNat, List.mem_range.mpr (by omega), ?_⟩
    show ((l.toNat : ℕ) : ℤ) = l
    exact Int.toNat_of_nonneg h0

theorem possible0_nodup (lanes : ℕ) : ((List.range lanes).map Int.ofNat).Nodup :=
  List.Nodup.map (fun _ _ hab => Int.ofNat.inj hab) (List.nodup_range lanes)

theorem noteGroup_time (lanes : ℕ) (ch : ℕ → Bool) (cp : ℕ → ℕ)
    (pat : List ℤ) (i : ℕ) (p : ℚ × Bool) :
    ∀ n ∈ noteGroup lanes ch cp pat i p, n.time = pyInt (p.1 * 1000) := by
  intro n hn
  simp only [noteGroup] at hn
  by_cases hc : (p.2 && ch i) = true
  · rw [if_pos hc] at hn
    cases hr : randomChoice (((List.range lanes).map Int.ofNat).filter
        fun l => l != pat.getD (i % pat.length) 0) (cp i) with
    | some lane2 =>
        rw [hr] at hn
        simp at hn
        rcases hn with rfl | rfl <;> rfl
    | none =>
        rw [hr] at hn
        simp at hn
        rw [hn]
  · rw [if_neg hc] at hn
    simp at hn
    rw [hn]

theorem placeLoop_time_mem (lanes : ℕ) (ch : ℕ → Bool) (cp : ℕ → ℕ)
    (pat : List ℤ) :
    ∀ (ts : List (ℚ × Bool)) (i : ℕ) (n : Note),
      n ∈ placeLoop lanes ch cp pat i ts → ∃ q ∈ ts, n.time = pyInt (q.1 * 1000) := by
  intro ts
  induction ts with
  | nil => intro i n hn; simp [placeLoop] at hn
  | cons p rest ih =>
      intro i n hn
      simp only [placeLoop] at hn
      rcases List.mem_append.mp hn with h | h
      · exact ⟨p, List.mem_cons_self p rest, noteGroup_time lanes ch cp pat i p n h⟩
      · obtain ⟨q, hq, ht⟩ := ih (i + 1) n h
        exact ⟨q, List.mem_cons_of_mem p hq, ht⟩

theorem placeLoop_sorted (lanes : ℕ) (ch : ℕ → Bool) (cp : ℕ → ℕ)
    (pat : List ℤ) :
    ∀ (ts : List (ℚ × Bool)) (i : ℕ),
      List.Pairwise (· ≤ ·) (ts.map Prod.fst) →
      List.Pairwise (fun a b : Note => a.time ≤ b.time)
        (placeLoop lanes ch cp pat i ts) := by
  intro ts
  induction ts with
  | nil => intro i _; simp [placeLoop]
  | cons p rest ih =>
      intro i hps
      rw [List.map_cons] at hps
      simp only [placeLoop]
      refine List.pairwise_append.mpr
        ⟨?_, ih (i + 1) (List.Pairwise.of_cons hps), ?_⟩
      · apply List.pairwise_of_forall_mem_list
        intro a ha b hb
        rw [noteGroup_time lanes ch cp pat i p a ha,
          noteGroup_time lanes ch cp pat i p b hb]
      · intro a ha b hb
        rw [noteGroup_time lanes ch cp pat i p a ha]
        obtain ⟨q, hq, hbt⟩ := placeLoop_time_mem lanes ch cp pat rest (i + 1) b hb
        rw [hbt]
        apply pyInt_mono
        have hle : p.1 ≤ q.1 :=
          (List.pairwise_cons.mp hps).1 q.1 (List.mem_map_of_mem Prod.fst hq)
        linarith

theorem placeSimpleLoop_spec (lanes : ℕ) (pick : ℕ → ℕ) :
    ∀ (ts : List ℚ) (i : ℕ) (last : ℤ) (ns : List Note),
      placeSimpleLoop lanes pick i last ts = some ns →
      (ns.map Note.time = ts.map fun t => pyInt (t * 1000)) ∧
      (∀ n ∈ ns, 0 ≤ n.lane ∧ n.lane < (lanes : ℤ)) ∧
      (2 ≤ lanes →
        List.Chain' (fun a b : Note => a.lane ≠ b.lane) ns ∧
          ∀ n, ns.head? = some n → 0 ≤ last → last < (lanes : ℤ) →
            n.lane ≠ last) := by
  intro ts
  induction ts with
  | nil =>
      intro i last ns h
      simp only [placeSimpleLoop] at h
      obtain rfl := (Option.some.inj h).symm
      exact ⟨by simp, by simp, fun _ => ⟨List.chain'_nil, by simp⟩⟩
  | cons t rest ih =>
      intro i last ns h
      simp only [placeSimpleLoop] at h
      split at h
      · exact Option.noConfusion h
      · next chosen hr =>
          split at h
          · exact Option.noConfusion h
          · next notes hrec =>
              obtain rfl := (Option.some.inj h).symm
              obtain ⟨iht, ihrange, ihchain⟩ := ih (i + 1) chosen notes hrec
              have hchosen0 : chosen ∈ (List.range lanes).map Int.ofNat := by
                have hm := randomChoice_mem hr
                split at hm
                · exact (List.erase_sublist last ((List.range lanes).map Int.ofNat)).subset hm
                · exact hm
              have hcr : 0 ≤ chosen ∧ chosen < (lanes : ℤ) := mem_possible0.mp hchosen0
              refine ⟨?_, ?_, ?_⟩
              · simp only [List.map_cons]
                rw [iht]
              · intro n hn
                rcases List.mem_cons.mp hn with rfl | hn'
                · exact hcr
                · exact ihrange n hn'
              · intro h2
                obtain ⟨ihc, ihhead⟩ := ihchain h2
                constructor
                · rw [List.chain'_cons']
                  refine ⟨?_, ihc⟩
                  intro b hb
                  have hbne := ihhead b (Option.mem_def.mp hb) hcr.1 hcr.2
                  exact fun he => hbne (by rw [← he])
                · intro n hn h0 hl
                  rw [List.head?_cons] at hn
                  obtain rfl := (Option.some.inj hn).symm
                  have hcond : last ∈ (List.range lanes).map Int.ofNat ∧
                      1 < ((List.range lanes).map Int.ofNat).length := by
                    refine ⟨mem_possible0.mpr ⟨h0, hl⟩, ?_⟩
                    rw [List.length_map, List.length_range]
                    omega
                  rw [if_pos hcond] at hr
                  have hmem := randomChoice_mem hr
                  have := (List.Nodup.mem_erase_iff (possible0_nodup lanes)).mp hmem
                  exact this.1

theorem filterMap_zip_sublist (thr : ℚ) :
    ∀ (l1 l2 : List ℚ),
      List.Sublist
        ((l1.zip l2).filterMap fun p => if thr ≤ p.2 then some p.1 else none) l1 := by
  intro l1
  induction l1 with
  | nil => intro l2; simp
  | cons a l1' ih =>
      intro l2
      cases l2 with
      | nil => simp
      | cons b l2' =>
          rw [List.zip_cons_cons, List.filterMap_cons]
          by_cases hc : thr ≤ b
          · rw [if_pos hc]
            exact List.Sublist.cons₂ a (ih l2')
          · rw [if_neg hc]
            exact List.Sublist.cons a (ih l2')

theorem strong_onsets_sublist (onset_times onset_strengths : List ℚ)
    (difficulty : ℚ) :
    List.Sublist (strong_onsets onset_times onset_strengths difficulty)
      onset_times := by
  simp only [strong_onsets]
  split
  · exact filterMap_zip_sublist _ onset_times onset_strengths
  · exact List.nil_sublist onset_times

theorem placeSimpleLoop_sorted (lanes : ℕ) (pick : ℕ → ℕ) (ts : List ℚ)
    (i : ℕ) (last : ℤ) (ns : List Note)
    (h : placeSimpleLoop lanes pick i last ts = some ns)
    (hts : List.Pairwise (· ≤ ·) ts) :
    List.Pairwise (fun a b : Note => a.time ≤ b.time) ns := by
  have ht := (placeSimpleLoop_spec lanes pick ts i last ns h).1
  have hmapped : List.Pairwise (· ≤ ·) (ts.map fun t => pyInt (t * 1000)) := by
    refine List.Pairwise.map _ ?_ hts
    intro a b hab
    exact pyInt_mono (by linarith)
  rw [← ht] at hmapped
  exact List.pairwise_map.mp hmapped

/-- C3: for every generated beatmap (expert stream generator, smart generator,
configurable generator in any mode), the note list is sorted non-decreasing by
`time`, assuming the analysis adapter returns strictly increasing beat
timestamps and sorted onset timestamps. -/
theorem notes_sorted_by_time (beat_times : List ℚ) (is_beat_high_energy : List Bool)
    (onset_times onset_strengths : List ℚ) (difficulty : ℚ)
    (lanes stream_subdivision : ℕ) (min_stream_duration_beats : ℚ)
    (patternPick : ℕ) (chordHit : ℕ → Bool) (chordPick pick : ℕ → ℕ)
    (mode : String)
    (hbeats : List.Pairwise (· < ·) beat_times)
    (honsets : List.Pairwise (· ≤ ·) onset_times) :
    List.Pairwise (fun a b : Note => a.time ≤ b.time)
        (generate_stream_map beat_times is_beat_high_energy onset_times lanes
          stream_subdivision min_stream_duration_beats patternPick chordHit
          chordPick) ∧
      (∀ ns, generate_smart_beatmap onset_times onset_strengths difficulty
          lanes pick = some ns →
        List.Pairwise (fun a b : Note => a.time ≤ b.time) ns) ∧
      (∀ ns, generate_configurable_beatmap onset_times onset_strengths
          difficulty lanes mode pick = some ns →
        List.Pairwise (fun a b : Note => a.time ≤ b.time) ns) := by
  refine ⟨?_, ?_, ?_⟩
  · unfold generate_stream_map
    exact placeLoop_sorted lanes chordHit chordPick _ _ 0
      (note_timestamps_sorted _ _ _ beat_times 0 hbeats)
  · intro ns h
    unfold generate_smart_beatmap at h
    exact placeSimpleLoop_sorted lanes pick _ 0 (-1) ns h
      (List.Pairwise.sublist
        (strong_onsets_sublist onset_times onset_strengths difficulty) honsets)
  · intro ns h
    unfold generate_configurable_beatmap at h
    refine placeSimpleLoop_sorted lanes pick _ 0 (-1) ns h ?_
    split
    · exact List.Pairwise.sublist
        (strong_onsets_sublist onset_times onset_strengths difficulty) honsets
    · exact honsets

/-- Witness for C3 at a concrete input for all three generators. -/
theorem notes_sorted_by_time_checked :
    List.Pairwise (fun a b : Note => a.time ≤ b.time)
        (generate_stream_map [0, 1] [false, false] [1 / 2] 4 4 4 0
          (fun _ => false) (fun _ => 0)) ∧
      (∀ ns, generate_smart_beatmap [1 / 2] [5] 1 4 (fun _ => 0) = some ns →
        List.Pairwise (fun a b : Note => a.time ≤ b.time) ns) ∧
      (∀ ns, generate_configurable_beatmap [1 / 2] [5] 1 4 "chaotic"
          (fun _ => 0) = some ns →
        List.Pairwise (fun a b : Note => a.time ≤ b.time) ns) :=
  notes_sorted_by_time [0, 1] [false, false] [1 / 2] [5] 1 4 4 4 0
    (fun _ => false) (fun _ => 0) (fun _ => 0) "chaotic"
    (by norm_num) (by norm_num)

/-- C7: in the no-repeat random variant (both simple generators), any two
adjacent notes have different lanes whenever `lanes ≥ 2`, regardless of the
random draws. -/
theorem no_repeat_adjacent (onset_times onset_strengths : List ℚ)
    (difficulty : ℚ) (lanes : ℕ) (pick : ℕ → ℕ) (mode : String)
    (h2 : 2 ≤ lanes) :
    (∀ ns, generate_smart_beatmap onset_times onset_strengths difficulty lanes
        pick = some ns →
      List.Chain' (fun a b : Note => a.lane ≠ b.lane) ns) ∧
    (∀ ns, generate_configurable_beatmap onset_times onset_strengths difficulty
        lanes mode pick = some ns →
      List.Chain' (fun a b : Note => a.lane ≠ b.lane) ns) := by
  constructor
  · intro ns h
    unfold generate_smart_beatmap at h
    exact ((placeSimpleLoop_spec lanes pick _ 0 (-1) ns h).2.2 h2).1
  · intro ns h
    unfold generate_configurable_beatmap at h
    exact ((placeSimpleLoop_spec lanes pick _ 0 (-1) ns h).2.2 h2).1

/-- Witness for C7 at a concrete input (one onset, four lanes). -/
theorem no_repeat_adjacent_checked :
    List.Chain' (fun a b : Note => a.lane ≠ b.lane) [(⟨500, 0⟩ : Note)] :=
  (no_repeat_adjacent [1 / 2] [5] 1 4 (fun _ => 0) "chaotic" (by omega)).1
    [⟨500, 0⟩]
    (by
      have hno : ¬ ∃ a, a < 4 ∧ ((a : ℕ) : ℤ) = -1 := by
        rintro ⟨a, -, ha⟩
        omega
      norm_num [generate_smart_beatmap, strong_onsets, percentile,
        List.insertionSort, List.orderedInsert, ceil_eq_neg_floor_neg,
        List.filterMap, placeSimpleLoop, randomChoice, pyInt, hno,
        List.get?_eq_getElem?, List.getElem?_map, List.getElem?_range])

theorem pattern_entry_bounds :
    ∀ pat ∈ patterns, ∀ j : ℕ, 0 ≤ pat.getD j 0 ∧ pat.getD j 0 < 4 := by
  intro pat hpat j
  have hcases : pat = [0, 2, 1, 3, 2, 0, 3, 1] ∨ pat = [0, 1, 2, 3, 2, 1, 0, 1] ∨
      pat = [0, 3, 1, 2, 1, 3, 0, 2] := by simpa [patterns] using hpat
  have hj8 : j < 8 ∨ 8 ≤ j := by omega
  rcases hj8 with hj | hj
  · rcases hcases with rfl | rfl | rfl <;> interval_cases j <;> decide
  · rcases hcases with rfl | rfl | rfl
    all_goals
      rw [List.getD_eq_default]
      · decide
      · simpa using hj

theorem chosen_pattern_mem (k : ℕ) :
    patterns.getD (k % patterns.length) [] ∈ patterns := by
  have hlen : patterns.length = 3 := rfl
  rw [hlen]
  have h3 : k % 3 = 0 ∨ k % 3 = 1 ∨ k % 3 = 2 := by omega
  rcases h3 with h | h | h <;> rw [h] <;> simp [patterns]

theorem noteGroup_lane_bounds (lanes : ℕ) (ch : ℕ → Bool) (cp : ℕ → ℕ)
    (pat : List ℤ) (hpat : pat ∈ patterns) (i : ℕ) (p : ℚ × Bool) :
    ∀ n ∈ noteGroup lanes ch cp pat i p,
      0 ≤ n.lane ∧ n.lane < ((max 4 lanes : ℕ) : ℤ) := by
  have h4 : (4 : ℤ) ≤ ((max 4 lanes : ℕ) : ℤ) := by
    exact_mod_cast Nat.le_max_left 4 lanes
  have hlanes : ((lanes : ℕ) : ℤ) ≤ ((max 4 lanes : ℕ) : ℤ) := by
    exact_mod_cast Nat.le_max_right 4 lanes
  have hprim := pattern_entry_bounds pat hpat (i % pat.length)
  intro n hn
  simp only [noteGroup] at hn
  by_cases hc : (p.2 && ch i) = true
  · rw [if_pos hc] at hn
    cases hr : randomChoice ((((List.range lanes).map Int.ofNat).filter
        fun l => l != pat.getD (i % pat.length) 0)) (cp i) with
    | some lane2 =>
        rw [hr] at hn
        simp only [List.mem_cons, List.not_mem_nil, or_false] at hn
        rcases hn with rfl | rfl
        · refine ⟨hprim.1, ?_⟩
          show pat.getD (i % pat.length) 0 < ((max 4 lanes : ℕ) : ℤ)
          have := hprim.2
          omega
        · have hm := randomChoice_mem hr
          have hm0 := (List.mem_filter.mp hm).1
          have hb := mem_possible0.mp hm0
          refine ⟨hb.1, ?_⟩
          show lane2 < ((max 4 lanes : ℕ) : ℤ)
          have := hb.2
          omega
    | none =>
        rw [hr] at hn
        simp only [List.mem_cons, List.not_mem_nil, or_false] at hn
        rw [hn]
        refine ⟨hprim.1, ?_⟩
        show pat.getD (i % pat.length) 0 < ((max 4 lanes : ℕ) : ℤ)
        have := hprim.2
        omega
  · rw [if_neg hc] at hn
    simp only [List.mem_cons, List.not_mem_nil, or_false] at hn
    rw [hn]
    refine ⟨hprim.1, ?_⟩
    show pat.getD (i % pat.length) 0 < ((max 4 lanes : ℕ) : ℤ)
    have := hprim.2
    omega

theorem placeLoop_lane_bounds (lanes : ℕ) (ch : ℕ → Bool) (cp : ℕ → ℕ)
    (pat : List ℤ) (hpat : pat ∈ patterns) :
    ∀ (ts : List (ℚ × Bool)) (i : ℕ), ∀ n ∈ placeLoop lanes ch cp pat i ts,
      0 ≤ n.lane ∧ n.lane < ((max 4 lanes : ℕ) : ℤ) := by
  intro ts
  induction ts with
  | nil => intro i n hn; simp [placeLoop] at hn
  | cons p rest ih =>
      intro i n hn
      simp only [placeLoop] at hn
      rcases List.mem_append.mp hn with h | h
      · exact noteGroup_lane_bounds lanes ch cp pat hpat i p n h
      · exact ih (i + 1) n h

/-- Counterexample to C5 as stated: with `lanes = 1` the expert generator
still emits pattern lanes from `[0, 4)`; on a 3-beat grid with no stream
sections the second note lands in lane 2, outside `[0, 1)`. -/
theorem lane_range_cex :
    ¬ (∀ n ∈ generate_stream_map [0, 1, 2] [false, false, false] [] 1 4 4 0
          (fun _ => false) (fun _ => 0), 0 ≤ n.lane ∧ n.lane < (1 : ℤ)) := by
  intro h
  have heval : generate_stream_map [0, 1, 2] [false, false, false] [] 1 4 4 0
      (fun _ => false) (fun _ => 0) = [⟨0, 0⟩, ⟨1000, 2⟩] := by
    norm_num [generate_stream_map, stream_sections, scanRuns, note_timestamps,
      intervalNotes, inStream, patterns, noteGroup, placeLoop, pyInt,
      List.filter]
  have h2 := h ⟨1000, 2⟩ (by rw [heval]; simp)
  have h3 : (2 : ℤ) < 1 := h2.2
  omega

/-- C5 (amended): the simple generators keep every lane inside `[0, lanes)`;
the expert generator's primary lanes come from the fixed four-lane patterns
and its chord lanes from `[0, lanes)`, so its notes lie in
`[0, max 4 lanes)` in general, and inside `[0, lanes)` exactly when
`lanes ≥ 4`. -/
theorem lane_range_amended (beat_times : List ℚ) (flags : List Bool)
    (onset_times onset_strengths : List ℚ) (difficulty : ℚ)
    (lanes S : ℕ) (D : ℚ) (patternPick : ℕ) (chordHit : ℕ → Bool)
    (chordPick pick : ℕ → ℕ) (mode : String) :
    (∀ ns, generate_smart_beatmap onset_times onset_strengths difficulty lanes
        pick = some ns → ∀ n ∈ ns, 0 ≤ n.lane ∧ n.lane < (lanes : ℤ)) ∧
    (∀ ns, generate_configurable_beatmap onset_times onset_strengths difficulty
        lanes mode pick = some ns → ∀ n ∈ ns, 0 ≤ n.lane ∧ n.lane < (lanes : ℤ)) ∧
    (∀ n ∈ generate_stream_map beat_times flags onset_times lanes S D
        patternPick chordHit chordPick,
      0 ≤ n.lane ∧ n.lane < ((max 4 lanes : ℕ) : ℤ)) ∧
    (4 ≤ lanes →
      ∀ n ∈ generate_stream_map beat_times flags onset_times lanes S D
          patternPick chordHit chordPick,
        0 ≤ n.lane ∧ n.lane < (lanes : ℤ)) := by
  have hexpert : ∀ n ∈ generate_stream_map beat_times flags onset_times lanes S
      D patternPick chordHit chordPick,
      0 ≤ n.lane ∧ n.lane < ((max 4 lanes : ℕ) : ℤ) := by
    unfold generate_stream_map
    exact placeLoop_lane_bounds lanes chordHit chordPick _
      (chosen_pattern_mem patternPick) _ 0
  refine ⟨?_, ?_, hexpert, ?_⟩
  · intro ns h
    unfold generate_smart_beatmap at h
    exact (placeSimpleLoop_spec lanes pick _ 0 (-1) ns h).2.1
  · intro ns h
    unfold generate_configurable_beatmap at h
    exact (placeSimpleLoop_spec lanes pick _ 0 (-1) ns h).2.1
  · intro h4 n hn
    have := hexpert n hn
    have hmax : max 4 lanes = lanes := Nat.max_eq_right h4
    rw [hmax] at this
    exact this

/-- Witness for C5 (amended) at a concrete input. -/
theorem lane_range_amended_checked :
    ∀ n ∈ generate_stream_map [0, 1, 2] [false, false, false] [] 4 4 4 0
        (fun _ => false) (fun _ => 0),
      0 ≤ n.lane ∧ n.lane < ((4 : ℕ) : ℤ) :=
  (lane_range_amended [0, 1, 2] [false, false, false] [] [] 1 4 4 4 0
    (fun _ => false) (fun _ => 0) (fun _ => 0) "chaotic").2.2.2 (by omega)

theorem noteGroup_pairwise (lanes : ℕ) (ch : ℕ → Bool) (cp : ℕ → ℕ)
    (pat : List ℤ) (i : ℕ) (p : ℚ × Bool) :
    List.Pairwise (fun a b : Note => a.time = b.time → a.lane ≠ b.lane)
      (noteGroup lanes ch cp pat i p) := by
  simp only [noteGroup]
  by_cases hc : (p.2 && ch i) = true
  · rw [if_pos hc]
    cases hr : randomChoice ((((List.range lanes).map Int.ofNat).filter
        fun l => l != pat.getD (i % pat.length) 0)) (cp i) with
    | some lane2 =>
        have hmem := randomChoice_mem hr
        have hne : lane2 ≠ pat.getD (i % pat.length) 0 := by
          have := (List.mem_filter.mp hmem).2
          simpa using this
        refine List.pairwise_cons.mpr ⟨?_, by simp⟩
        intro b hb
        rw [List.mem_singleton] at hb
        subst hb
        intro _
        show pat.getD (i % pat.length) 0 ≠ lane2
        exact fun he => hne he.symm
    | none => simp
  · rw [if_neg hc]; simp

theorem placeLoop_chord_distinct (lanes : ℕ) (ch : ℕ → Bool) (cp : ℕ → ℕ)
    (pat : List ℤ) :
    ∀ (ts : List (ℚ × Bool)) (i : ℕ),
      List.Pairwise (· ≠ ·) (ts.map fun p => pyInt (p.1 * 1000)) →
      List.Pairwise (fun a b : Note => a.time = b.time → a.lane ≠ b.lane)
        (placeLoop lanes ch cp pat i ts) := by
  intro ts
  induction ts with
  | nil => intro i _; simp [placeLoop]
  | cons p rest ih =>
      intro i hms
      rw [List.map_cons] at hms
      simp only [placeLoop]
      refine List.pairwise_append.mpr
        ⟨noteGroup_pairwise lanes ch cp pat i p,
          ih (i + 1) (List.Pairwise.of_cons hms), ?_⟩
      intro a ha b hb hab
      exfalso
      have hat := noteGroup_time lanes ch cp pat i p a ha
      obtain ⟨q, hq, hbt⟩ := placeLoop_time_mem lanes ch cp pat rest (i + 1) b hb
      have hne : pyInt (p.1 * 1000) ≠ pyInt (q.1 * 1000) :=
        (List.pairwise_cons.mp hms).1 _ (List.mem_map_of_mem _ hq)
      exact hne (by rw [← hat, hab, hbt])

/-- Counterexample to C4 as stated: with a 1-millisecond beat interval and 8
subdivisions, all 8 stream notes of one beat truncate to time 0 ms, and the
`zig_zag` pattern revisits lane 0 (positions 0 and 5), so two notes share both
time and lane. -/
theorem chord_lanes_cex :
    ¬ List.Pairwise (fun a b : Note => a.time = b.time → a.lane ≠ b.lane)
        (generate_stream_map [0, 1 / 1000] [true, true] [] 4 8 2 0
          (fun _ => false) (fun _ => 0)) := by
  have heval : generate_stream_map [0, 1 / 1000] [true, true] [] 4 8 2 0
      (fun _ => false) (fun _ => 0) =
      [⟨0, 0⟩, ⟨0, 2⟩, ⟨0, 1⟩, ⟨0, 3⟩, ⟨0, 2⟩, ⟨0, 0⟩, ⟨0, 3⟩, ⟨0, 1⟩] := by
    norm_num [generate_stream_map, stream_sections, scanRuns, note_timestamps,
      intervalNotes, inStream, patterns, noteGroup, placeLoop, pyInt,
      List.range_succ]
  rw [heval]
  intro hpw
  have h05 := (List.pairwise_cons.mp hpw).1 ⟨0, 0⟩ (by simp)
  exact h05 rfl rfl

/-- C4 (amended): any two notes sharing a time value have distinct lanes
provided distinct generated note timestamps fall in distinct integer
milliseconds (within one timestamp the expert chord lane always differs from
its primary lane); without that proviso two notes from different timestamps
can share both time and lane. -/
theorem chord_lanes_amended (beat_times : List ℚ) (flags : List Bool)
    (onset_times onset_strengths : List ℚ) (difficulty : ℚ) (lanes S : ℕ)
    (D : ℚ) (patternPick : ℕ) (chordHit : ℕ → Bool) (chordPick pick : ℕ → ℕ)
    (hms : List.Pairwise (· ≠ ·)
      ((note_timestamps (stream_sections flags D) onset_times S 0
        beat_times).map fun p => pyInt (p.1 * 1000))) :
    List.Pairwise (fun a b : Note => a.time = b.time → a.lane ≠ b.lane)
        (generate_stream_map beat_times flags onset_times lanes S D patternPick
          chordHit chordPick) ∧
      (∀ ns, generate_smart_beatmap onset_times onset_strengths difficulty
          lanes pick = some ns →
        List.Pairwise (· ≠ ·)
          ((strong_onsets onset_times onset_strengths difficulty).map
            fun t => pyInt (t * 1000)) →
        List.Pairwise (fun a b : Note => a.time = b.time → a.lane ≠ b.lane) ns) ∧
      (∀ ns mode2, generate_configurable_beatmap onset_times onset_strengths
          difficulty lanes mode2 pick = some ns →
        List.Pairwise (· ≠ ·)
          ((if mode2 = "smart" ∧ 0 < onset_times.length then
              strong_onsets onset_times onset_strengths difficulty
            else onset_times).map fun t => pyInt (t * 1000)) →
        List.Pairwise (fun a b : Note => a.time = b.time → a.lane ≠ b.lane) ns) := by
  refine ⟨?_, ?_, ?_⟩
  · unfold generate_stream_map
    exact placeLoop_chord_distinct lanes chordHit chordPick _ _ 0 hms
  · intro ns h hksep
    unfold generate_smart_beatmap at h
    have ht := (placeSimpleLoop_spec lanes pick _ 0 (-1) ns h).1
    rw [← ht] at hksep
    exact (List.pairwise_map.mp hksep).imp fun hne hab => absurd hab hne
  · intro ns mode2 h hksep
    unfold generate_configurable_beatmap at h
    have ht := (placeSimpleLoop_spec lanes pick _ 0 (-1) ns h).1
    rw [← ht] at hksep
    exact (List.pairwise_map.mp hksep).imp fun hne hab => absurd hab hne

/-- Witness for C4 (amended) at a concrete input: a 2-beat grid whose two
generated timestamps land in distinct milliseconds. -/
theorem chord_lanes_amended_checked :
    List.Pairwise (fun a b : Note => a.time = b.time → a.lane ≠ b.lane)
      (generate_stream_map [0, 1, 2] [false, false, false] [] 4 4 4 0
        (fun _ => false) (fun _ => 0)) :=
  (chord_lanes_amended [0, 1, 2] [false, false, false] [] [] 1 4 4 4 0
    (fun _ => false) (fun _ => 0) (fun _ => 0)
    (by norm_num [note_timestamps, intervalNotes, inStream, stream_sections,
      scanRuns, pyInt, List.filter])).1

theorem chosen_pattern_length (k : ℕ) :
    (patterns.getD (k % patterns.length) []).length = 8 := by
  have h := chosen_pattern_mem k
  have hcases : patterns.getD (k % patterns.length) [] = [0, 2, 1, 3, 2, 0, 3, 1] ∨
      patterns.getD (k % patterns.length) [] = [0, 1, 2, 3, 2, 1, 0, 1] ∨
      patterns.getD (k % patterns.length) [] = [0, 3, 1, 2, 1, 3, 0, 2] := by
    simpa [patterns] using h
  rcases hcases with h' | h' | h' <;> rw [h'] <;> rfl

theorem noteGroup_head (lanes : ℕ) (ch : ℕ → Bool) (cp : ℕ → ℕ)
    (pat : List ℤ) (i : ℕ) (p : ℚ × Bool) :
    (noteGroup lanes ch cp pat i p).head? =
      some ⟨pyInt (p.1 * 1000), pat.getD (i % pat.length) 0⟩ := by
  simp only [noteGroup]
  by_cases hc : (p.2 && ch i) = true
  · rw [if_pos hc]
    cases randomChoice ((((List.range lanes).map Int.ofNat).filter
        fun l => l != pat.getD (i % pat.length) 0)) (cp i) <;> rfl
  · rw [if_neg hc]
    rfl

theorem placeLoop_eq_flatMap (lanes : ℕ) (ch : ℕ → Bool) (cp : ℕ → ℕ)
    (pat : List ℤ) :
    ∀ (ts : List (ℚ × Bool)) (i : ℕ),
      placeLoop lanes ch cp pat i ts =
        (List.range ts.length).flatMap fun k =>
          noteGroup lanes ch cp pat (i + k) (ts.getD k (0, false)) := by
  intro ts
  induction ts with
  | nil => intro i; simp [placeLoop]
  | cons p rest ih =>
      intro i
      simp only [placeLoop, List.length_cons, List.range_succ_eq_map,
        List.flatMap_cons, List.flatMap_map]
      rw [ih (i + 1)]
      congr 1
      apply List.flatMap_congr
      intro k _
      have harith : i + 1 + k = i + (k + 1) := by omega
      rw [harith, Nat.succ_eq_add_one, List.getD_cons_succ]

theorem placeLoop_primary_lanes (lanes : ℕ) (cp : ℕ → ℕ) (pat : List ℤ) :
    ∀ (ts : List (ℚ × Bool)) (i : ℕ),
      (placeLoop lanes (fun _ => false) cp pat i ts).map Note.lane =
        (List.range ts.length).map fun k => pat.getD ((i + k) % pat.length) 0 := by
  intro ts
  induction ts with
  | nil => intro i; simp [placeLoop]
  | cons p rest ih =>
      intro i
      simp only [placeLoop, List.map_append]
      have hgroup : (noteGroup lanes (fun _ => false) cp pat i p).map Note.lane
          = [pat.getD (i % pat.length) 0] := by
        simp [noteGroup]
      rw [hgroup, ih (i + 1), List.length_cons, List.range_succ_eq_map,
        List.map_cons, List.map_map]
      simp only [List.singleton_append, Nat.add_zero]
      congr 1
      apply List.map_congr_left
      intro k _
      simp only [Function.comp]
      congr 2
      omega

/-- C6: the expert generator's primary lanes follow the single 8-element
pattern chosen at the start, cyclically (`pattern[n mod 8]` for the n-th
note), independent of downbeat status, for the full note sequence.  First
conjunct: with no chord draws succeeding, the whole lane sequence is the
cyclic pattern.  Second and third conjuncts: for arbitrary chord draws, the
output is the concatenation of the per-timestamp note groups in order, and
the head (primary note) of the n-th group carries lane `pattern[n mod 8]`. -/
theorem cyclic_pattern_lanes (beat_times : List ℚ) (flags : List Bool)
    (onset_times : List ℚ) (lanes S : ℕ) (D : ℚ) (patternPick : ℕ)
    (chordHit : ℕ → Bool) (chordPick : ℕ → ℕ) :
    ((generate_stream_map beat_times flags onset_times lanes S D patternPick
        (fun _ => false) chordPick).map Note.lane =
      (List.range ((note_timestamps (stream_sections flags D) onset_times S 0
          beat_times).length)).map
        (fun k => (patterns.getD (patternPick % patterns.length) []).getD
          (k % 8) 0)) ∧
    (generate_stream_map beat_times flags onset_times lanes S D patternPick
        chordHit chordPick =
      (List.range ((note_timestamps (stream_sections flags D) onset_times S 0
          beat_times).length)).flatMap fun k =>
        noteGroup lanes chordHit chordPick
          (patterns.getD (patternPick % patterns.length) []) k
          ((note_timestamps (stream_sections flags D) onset_times S 0
            beat_times).getD k (0, false))) ∧
    (∀ k : ℕ, (noteGroup lanes chordHit chordPick
        (patterns.getD (patternPick % patterns.length) []) k
        ((note_timestamps (stream_sections flags D) onset_times S 0
          beat_times).getD k (0, false))).head?.map Note.lane =
      some ((patterns.getD (patternPick % patterns.length) []).getD
        (k % 8) 0)) := by
  refine ⟨?_, ?_, ?_⟩
  · unfold generate_stream_map
    rw [placeLoop_primary_lanes lanes chordPick _ _ 0]
    apply List.map_congr_left
    intro k _
    rw [chosen_pattern_length patternPick, Nat.zero_add]
  · unfold generate_stream_map
    rw [placeLoop_eq_flatMap lanes chordHit chordPick _ _ 0]
    apply List.flatMap_congr
    intro k _
    rw [Nat.zero_add]
  · intro k
    rw [noteGroup_head, chosen_pattern_length patternPick]
    rfl

theorem sorted_getD_le_getD (xs : List ℚ) {i j : ℕ}
    (hj : j < (xs.insertionSort (· ≤ ·)).length) (hij : i ≤ j) :
    (xs.insertionSort (· ≤ ·)).getD i 0 ≤ (xs.insertionSort (· ≤ ·)).getD j 0 := by
  have hi : i < (xs.insertionSort (· ≤ ·)).length := lt_of_le_of_lt hij hj
  rw [List.getD_eq_get _ _ hi, List.getD_eq_get _ _ hj]
  exact (List.sorted_insertionSort (· ≤ ·) xs).rel_get_of_le
    (Fin.mk_le_mk.mpr hij)

theorem sorted_getD_mem (xs : List ℚ) {i : ℕ}
    (hi : i < (xs.insertionSort (· ≤ ·)).length) :
    (xs.insertionSort (· ≤ ·)).getD i 0 ∈ xs := by
  rw [List.getD_eq_get _ _ hi]
  exact (List.perm_insertionSort (· ≤ ·) xs).subset (List.get_mem _ i hi)

theorem percentile_le_max (xs : List ℚ) (q : ℚ) (hne : xs ≠ [])
    (hq0 : 0 ≤ q) (hq100 : q ≤ 100) (M : ℚ) (hM : ∀ x ∈ xs, x ≤ M) :
    percentile xs q ≤ M := by
  have hlen : (xs.insertionSort (· ≤ ·)).length = xs.length :=
    (List.perm_insertionSort (· ≤ ·) xs).length_eq
  have hn1 : 1 ≤ xs.length := List.length_pos.mpr hne
  have hn1Q : (1 : ℚ) ≤ (xs.length : ℚ) := by exact_mod_cast hn1
  simp only [percentile]
  set r := q / 100 * ((xs.length : ℚ) - 1) with hrdef
  have hr0 : 0 ≤ r := by
    apply mul_nonneg (div_nonneg hq0 (by norm_num))
    linarith
  have hq1 : q / 100 ≤ 1 := (div_le_one (by norm_num : (0 : ℚ) < 100)).mpr hq100
  have hrle : r ≤ (xs.length : ℚ) - 1 := by
    have := mul_le_mul_of_nonneg_right hq1 (by linarith : (0 : ℚ) ≤ (xs.length : ℚ) - 1)
    linarith [this]
  have hf0 : 0 ≤ ⌊r⌋ := Int.floor_nonneg.mpr hr0
  have hcle : ⌈r⌉ ≤ (xs.length : ℤ) - 1 := by
    rw [Int.ceil_le]
    push_cast
    linarith
  have hfc : ⌊r⌋ ≤ ⌈r⌉ := Int.floor_le_ceil r
  have hcN : ⌈r⌉.toNat < xs.length := by omega
  have hfcN : ⌊r⌋.toNat ≤ ⌈r⌉.toNat := Int.toNat_le_toNat hfc
  have hcN' : ⌈r⌉.toNat < (xs.insertionSort (· ≤ ·)).length := by
    rw [hlen]; exact hcN
  have hvle : (xs.insertionSort (· ≤ ·)).getD (⌊r⌋.toNat) 0 ≤
      (xs.insertionSort (· ≤ ·)).getD (⌈r⌉.toNat) 0 :=
    sorted_getD_le_getD xs hcN' hfcN
  have hvcM : (xs.insertionSort (· ≤ ·)).getD (⌈r⌉.toNat) 0 ≤ M :=
    hM _ (sorted_getD_mem xs hcN')
  have hfr : (⌊r⌋ : ℚ) ≤ r := Int.floor_le r
  have hfr1 : r - (⌊r⌋ : ℚ) ≤ 1 := by
    have := Int.lt_floor_add_one r
    linarith
  have hkey : (r - (⌊r⌋ : ℚ)) *
        ((xs.insertionSort (· ≤ ·)).getD (⌈r⌉.toNat) 0 -
          (xs.insertionSort (· ≤ ·)).getD (⌊r⌋.toNat) 0) ≤
      1 * ((xs.insertionSort (· ≤ ·)).getD (⌈r⌉.toNat) 0 -
          (xs.insertionSort (· ≤ ·)).getD (⌊r⌋.toNat) 0) :=
    mul_le_mul_of_nonneg_right hfr1 (by linarith)
  linarith

theorem percentile_zero_le (xs : List ℚ) (hne : xs ≠ []) :
    ∀ x ∈ xs, percentile xs 0 ≤ x := by
  intro x hx
  have hlen : (xs.insertionSort (· ≤ ·)).length = xs.length :=
    (List.perm_insertionSort (· ≤ ·) xs).length_eq
  have hn1 : 1 ≤ xs.length := List.length_pos.mpr hne
  obtain ⟨j, hj⟩ :=
    List.mem_iff_get.mp ((List.perm_insertionSort (· ≤ ·) xs).symm.subset hx)
  have hval : percentile xs 0 = (xs.insertionSort (· ≤ ·)).getD 0 0 := by
    simp only [percentile]
    have hr : (0 : ℚ) / 100 * ((xs.length : ℚ) - 1) = 0 := by ring
    rw [hr, Int.floor_zero, Int.ceil_zero, Int.toNat_zero]
    push_cast
    ring
  rw [hval]
  have h0 : 0 < (xs.insertionSort (· ≤ ·)).length := by rw [hlen]; omega
  rw [List.getD_eq_get _ _ h0, ← hj]
  exact (List.sorted_insertionSort (· ≤ ·) xs).rel_get_of_le
    (Fin.mk_le_mk.mpr (Nat.zero_le _))

theorem percentile_hundred_max (xs : List ℚ) (hne : xs ≠ []) :
    percentile xs 100 ∈ xs ∧ ∀ x ∈ xs, x ≤ percentile xs 100 := by
  have hlen : (xs.insertionSort (· ≤ ·)).length = xs.length :=
    (List.perm_insertionSort (· ≤ ·) xs).length_eq
  have hn1 : 1 ≤ xs.length := List.length_pos.mpr hne
  have hval : percentile xs 100 =
      (xs.insertionSort (· ≤ ·)).getD (xs.length - 1) 0 := by
    simp only [percentile]
    have hr : (100 : ℚ) / 100 * ((xs.length : ℚ) - 1) =
        ((xs.length - 1 : ℕ) : ℚ) := by
      rw [Nat.cast_sub hn1]
      push_cast
      ring
    rw [hr, Int.floor_natCast, Int.ceil_natCast, Int.toNat_natCast]
    push_cast
    ring
  have hbound : xs.length - 1 < (xs.insertionSort (· ≤ ·)).length := by
    rw [hlen]; omega
  constructor
  · rw [hval]
    exact sorted_getD_mem xs hbound
  · intro x hx
    rw [hval]
    obtain ⟨j, hj⟩ :=
      List.mem_iff_get.mp ((List.perm_insertionSort (· ≤ ·) xs).symm.subset hx)
    rw [List.getD_eq_get _ _ hbound, ← hj]
    refine (List.sorted_insertionSort (· ≤ ·) xs).rel_get_of_le ?_
    have hjlt : (j : ℕ) < xs.length := by
      have h2 := j.2
      omega
    exact Fin.mk_le_mk.mpr (by omega)

theorem filterMap_keep_all (thr : ℚ) (l : List (ℚ × ℚ))
    (h : ∀ p ∈ l, thr ≤ p.2) :
    (l.filterMap fun p => if thr ≤ p.2 then some p.1 else none) =
      l.map Prod.fst := by
  induction l with
  | nil => rfl
  | cons a l' ih =>
      have hc := h a (List.mem_cons_self a l')
      have step : ((a :: l').filterMap fun p => if thr ≤ p.2 then some p.1 else none)
          = a.1 :: (l'.filterMap fun p => if thr ≤ p.2 then some p.1 else none) := by
        rw [List.filterMap_cons, if_pos hc]
      rw [step, List.map_cons, ih fun p hp => h p (List.mem_cons_of_mem a hp)]

/-- C8: difficulty 1.0 keeps every detected onset (the threshold is the 0th
percentile of the onset strengths, which lies below every strength);
difficulty 0.0 keeps exactly the onsets whose strength is at or above the
maximum observed strength (the threshold equals that maximum). -/
theorem difficulty_filter_extremes (onset_times onset_strengths : List ℚ)
    (hne : onset_times ≠ [])
    (hlen : onset_strengths.length = onset_times.length) :
    strong_onsets onset_times onset_strengths 1 = onset_times ∧
      ∀ M, onset_strengths.maximum = some M →
        strong_onsets onset_times onset_strengths 0 =
          (onset_times.zip onset_strengths).filterMap fun p =>
            if M ≤ p.2 then some p.1 else none := by
  have hpos : 0 < onset_times.length := List.length_pos.mpr hne
  have hsne : onset_strengths ≠ [] := by
    intro h
    rw [h] at hlen
    simp at hlen
    omega
  constructor
  · unfold strong_onsets
    rw [if_pos hpos]
    have h110 : (1 - (1 : ℚ)) * 100 = 0 := by norm_num
    rw [h110, filterMap_keep_all]
    · exact List.map_fst_zip onset_times onset_strengths (by omega)
    · intro p hp
      exact percentile_zero_le onset_strengths hsne p.2 (List.of_mem_zip hp).2
  · intro M hM
    unfold strong_onsets
    rw [if_pos hpos]
    have h100 : (1 - (0 : ℚ)) * 100 = 100 := by norm_num
    rw [h100]
    have hthr : percentile onset_strengths 100 = M := by
      obtain ⟨hmem, hub⟩ := percentile_hundred_max onset_strengths hsne
      have hle : percentile onset_strengths 100 ≤ M :=
        List.le_maximum_of_mem hmem hM
      have hge : M ≤ percentile onset_strengths 100 :=
        hub M (List.maximum_mem hM)
      linarith
    rw [hthr]

/-- Witness for C8 at a concrete input: onsets `[1, 2]` with strengths
`[5, 3]`. -/
theorem difficulty_filter_extremes_checked :
    strong_onsets [1, 2] [5, 3] 1 = [1, 2] ∧
      ∀ M, ([5, 3] : List ℚ).maximum = some M →
        strong_onsets [1, 2] [5, 3] 0 =
          (([1, 2] : List ℚ).zip [5, 3]).filterMap fun p =>
            if M ≤ p.2 then some p.1 else none :=
  difficulty_filter_extremes [1, 2] [5, 3] (by simp) (by simp)

theorem mem_zip_right :
    ∀ (l1 l2 : List ℚ), l2.length = l1.length → ∀ b ∈ l2,
      ∃ a, (a, b) ∈ l1.zip l2 := by
  intro l1
  induction l1 with
  | nil =>
      intro l2 hlen b hb
      rw [List.length_nil, List.length_eq_zero] at hlen
      rw [hlen] at hb
      exact absurd hb (List.not_mem_nil b)
  | cons y ys ih =>
      intro l2 hlen b hb
      cases l2 with
      | nil => exact absurd hb (List.not_mem_nil b)
      | cons x xs =>
          rcases List.mem_cons.mp hb with rfl | hb'
          · exact ⟨y, by rw [List.zip_cons_cons]; exact List.mem_cons_self _ _⟩
          · obtain ⟨a, ha⟩ := ih xs (by simpa using hlen) b hb'
            exact ⟨a, by rw [List.zip_cons_cons]; exact List.mem_cons_of_mem _ ha⟩

theorem placeSimpleLoop_total (lanes : ℕ) (pick : ℕ → ℕ) (h1 : 1 ≤ lanes) :
    ∀ (ts : List ℚ) (i : ℕ) (last : ℤ),
      ∃ ns, placeSimpleLoop lanes pick i last ts = some ns ∧
        ns.length = ts.length := by
  intro ts
  induction ts with
  | nil => intro i last; exact ⟨[], rfl, rfl⟩
  | cons t rest ih =>
      intro i last
      have hposs : (if last ∈ (List.range lanes).map Int.ofNat ∧
          1 < ((List.range lanes).map Int.ofNat).length
          then ((List.range lanes).map Int.ofNat).erase last
          else (List.range lanes).map Int.ofNat) ≠ [] := by
        split
        · next hcond =>
            intro hnil
            have hlen2 := hcond.2
            have herase := List.length_erase_of_mem hcond.1
            rw [hnil] at herase
            have h0 : (0 : ℕ) = ((List.range lanes).map Int.ofNat).length - 1 :=
              herase
            omega
        · intro hnil
          have hzero : ((List.range lanes).map Int.ofNat).length = 0 := by
            rw [hnil]; rfl
          rw [List.length_map, List.length_range] at hzero
          omega
      obtain ⟨chosen, hr⟩ := randomChoice_isSome hposs (pick i)
      obtain ⟨ns', hrec, hlen'⟩ := ih (i + 1) chosen
      refine ⟨⟨pyInt (t * 1000), chosen⟩ :: ns', ?_, by simp [hlen']⟩
      simp only [placeSimpleLoop]
      rw [hr]
      show (match placeSimpleLoop lanes pick (i + 1) chosen rest with
        | none => none
        | some notes =>
            some (Note.mk (pyInt (t * 1000)) chosen :: notes)) = _
      rw [hrec]

/-- C10: in the smart/filtered mode, for every difficulty in `[0, 1]` and
every non-empty onset list, the filtered onset set is non-empty (an onset of
maximum strength always passes the percentile threshold), so a generated
beatmap contains at least one note, and with `lanes ≥ 1` a beatmap is indeed
generated. -/
theorem smart_filter_nonempty (onset_times onset_strengths : List ℚ)
    (difficulty : ℚ) (lanes : ℕ) (pick : ℕ → ℕ)
    (h0 : 0 ≤ difficulty) (h1 : difficulty ≤ 1) (hne : onset_times ≠ [])
    (hlen : onset_strengths.length = onset_times.length) :
    strong_onsets onset_times onset_strengths difficulty ≠ [] ∧
      (∀ ns, generate_smart_beatmap onset_times onset_strengths difficulty
          lanes pick = some ns → ns ≠ []) ∧
      (1 ≤ lanes → ∃ ns,
        generate_smart_beatmap onset_times onset_strengths difficulty lanes
          pick = some ns ∧ ns ≠ []) ∧
      (1 ≤ lanes → ∃ ns,
        generate_configurable_beatmap onset_times onset_strengths difficulty
          lanes "smart" pick = some ns ∧ ns ≠ []) := by
  have hpos : 0 < onset_times.length := List.length_pos.mpr hne
  have hsne : onset_strengths ≠ [] := by
    intro h
    rw [h] at hlen
    simp at hlen
    omega
  obtain ⟨M, hM⟩ : ∃ M, onset_strengths.maximum = some M := by
    cases hmax : onset_strengths.maximum with
    | bot => exact absurd (List.maximum_eq_none.mp hmax) hsne
    | coe M2 => exact ⟨M2, rfl⟩
  have hMmem := List.maximum_mem hM
  have hq0 : 0 ≤ (1 - difficulty) * 100 := by nlinarith
  have hq100 : (1 - difficulty) * 100 ≤ 100 := by nlinarith
  have hthrM : percentile onset_strengths ((1 - difficulty) * 100) ≤ M := by
    refine percentile_le_max onset_strengths _ hsne hq0 hq100 M ?_
    intro x hx
    exact List.le_maximum_of_mem hx hM
  have hkept : strong_onsets onset_times onset_strengths difficulty ≠ [] := by
    unfold strong_onsets
    rw [if_pos hpos]
    intro hnil
    obtain ⟨a, ha⟩ := mem_zip_right onset_times onset_strengths hlen M hMmem
    have hcontra := List.filterMap_eq_nil.mp hnil _ ha
    rw [if_pos hthrM] at hcontra
    exact Option.noConfusion hcontra
  have hlenpos : 0 < (strong_onsets onset_times onset_strengths difficulty).length :=
    List.length_pos.mpr hkept
  refine ⟨hkept, ?_, ?_, ?_⟩
  · intro ns h
    unfold generate_smart_beatmap at h
    have ht := (placeSimpleLoop_spec lanes pick _ 0 (-1) ns h).1
    intro hns
    rw [hns] at ht
    simp only [List.map_nil] at ht
    exact hkept (List.map_eq_nil.mp ht.symm)
  · intro hl1
    obtain ⟨ns, hns, hlen'⟩ := placeSimpleLoop_total lanes pick hl1
      (strong_onsets onset_times onset_strengths difficulty) 0 (-1)
    refine ⟨ns, by exact hns, ?_⟩
    intro hns0
    rw [hns0] at hlen'
    simp at hlen'
    omega
  · intro hl1
    have hsel : (if ("smart" : String) = "smart" ∧ 0 < onset_times.length then
        strong_onsets onset_times onset_strengths difficulty
      else onset_times) = strong_onsets onset_times onset_strengths difficulty :=
      if_pos ⟨rfl, hpos⟩
    obtain ⟨ns, hns, hlen'⟩ := placeSimpleLoop_total lanes pick hl1
      (strong_onsets onset_times onset_strengths difficulty) 0 (-1)
    refine ⟨ns, ?_, ?_⟩
    · unfold generate_configurable_beatmap
      rw [hsel]
      exact hns
    · intro hns0
      rw [hns0] at hlen'
      simp at hlen'
      omega

/-- Witness for C10 at a concrete input. -/
theorem smart_filter_nonempty_checked :
    strong_onsets [1, 2] [5, 3] (1 / 2) ≠ [] :=
  (smart_filter_nonempty [1, 2] [5, 3] (1 / 2) 4 (fun _ => 0) (by norm_num)
    (by norm_num) (by simp) (by simp)).1

/-- C9 evaluation at the out-of-range configurations: instead of failing fast
with a descriptive error, the expert generator silently returns an empty note
list for `stream_subdivision = 0`, silently returns notes whose lanes cannot
lie in the empty range `[0, 0)` for `lanes = 0`, and the smart generator with
`lanes = 0` either raises a late generic `IndexError` at the first placed
note (`none` here) or, with no onsets kept, silently succeeds. -/
theorem config_not_validated :
    generate_stream_map [0, 1, 2] [true, true, true] [] 0 0 0 0
        (fun _ => false) (fun _ => 0) = [] ∧
      generate_stream_map [0, 1, 2] [false, false, false] [] 0 1 4 0
        (fun _ => false) (fun _ => 0) = [⟨0, 0⟩, ⟨1000, 2⟩] ∧
      generate_smart_beatmap [1] [5] 1 0 (fun _ => 0) = none ∧
      generate_smart_beatmap [] [] 1 0 (fun _ => 0) = some [] := by
  refine ⟨?_, ?_, ?_, ?_⟩
  · norm_num [generate_stream_map, stream_sections, scanRuns, note_timestamps,
      intervalNotes, inStream, patterns, noteGroup, placeLoop, pyInt,
      List.filter]
  · norm_num [generate_stream_map, stream_sections, scanRuns, note_timestamps,
      intervalNotes, inStream, patterns, noteGroup, placeLoop, pyInt,
      List.filter]
  · norm_num [generate_smart_beatmap, strong_onsets, percentile,
      List.insertionSort, List.orderedInsert, ceil_eq_neg_floor_neg,
      List.filterMap, placeSimpleLoop, randomChoice, pyInt]
  · norm_num [generate_smart_beatmap, strong_onsets, placeSimpleLoop]

end Bloomify
